import Mathlib

/-!
Verification of the free-time computation in ScheduleSlotter (src/app.py).

Times are embedded as integers counting minutes: the naive timestamp
`datetime.datetime.combine(d, datetime.time(h, 0))` for day number `d`
(days since an arbitrary epoch) and hour `h` becomes `1440 * d + 60 * h`.
Calendar dates are embedded as their day number, and `datetime.timedelta`
values as integer minute counts, so all comparisons in the source map to
integer comparisons.

The calendar loader (`requests.get`, `icalendar`, `recurring_ical_events`)
is an external collaborator: the engine only consumes, per date, the list
of event instances the loader yields for that date.  It is embedded as an
oracle `events_on : ℤ → List (ℤ × ℤ)` giving, for each day number, the
(start, end) minute timestamps of the instances overlapping that day.
-/

namespace ScheduleSlotter

/-- Embedding of `datetime.datetime.combine(current_date, datetime.time(h, 0))`
(src/app.py lines 52-53) as minutes: day number `d`, hour `h`. -/
def combine (d h : ℤ) : ℤ := 1440 * d + 60 * h

/-- One iteration of the inner loop `for start, end in free_times` of
`get_free_times_for_date_range` (src/app.py lines 72-81): the pieces that a
single free slot contributes to `updated_free_times` after subtracting the
event with buffered span (`adjusted_start`, `adjusted_end`).  The slot is
kept whole when the spans do not overlap; otherwise the left remainder is
emitted only if `adjusted_start > start` and the right remainder only if
`adjusted_end < end`. -/
def update_slot (adjusted_start adjusted_end : ℤ) (slot : ℤ × ℤ) : List (ℤ × ℤ) :=
  if adjusted_start ≥ slot.2 ∨ adjusted_end ≤ slot.1 then
    [slot]
  else
    (if adjusted_start > slot.1 then [(slot.1, adjusted_start)] else []) ++
      (if adjusted_end < slot.2 then [(adjusted_end, slot.2)] else [])

/-- The full inner loop (src/app.py lines 71-82): rebuild the free list as the
concatenation, in list order, of the pieces each slot contributes. -/
def updated_free_times (adjusted_start adjusted_end : ℤ)
    (free_times : List (ℤ × ℤ)) : List (ℤ × ℤ) :=
  free_times.flatMap (update_slot adjusted_start adjusted_end)

/-- Processing of one event of the day (src/app.py lines 59-82): apply the
buffers to the event's endpoints and subtract the buffered span from the
current free list. -/
def apply_event (delay_before delay_after : ℤ) (free_times : List (ℤ × ℤ))
    (event : ℤ × ℤ) : List (ℤ × ℤ) :=
  updated_free_times (event.1 - delay_before) (event.2 + delay_after) free_times

/-- The per-date computation (src/app.py lines 51-82): start from the single
working window and fold `apply_event` over the day's events in loader order. -/
def free_times_for_day (work_start work_end : ℤ) (events : List (ℤ × ℤ))
    (delay_before delay_after : ℤ) : List (ℤ × ℤ) :=
  events.foldl (apply_event delay_before delay_after) [(work_start, work_end)]

/-- Embedding of `get_free_times_for_date_range` (src/app.py lines 12-86).
The Python loop runs over `range(0, (end_date - start_date).days + 1)`, which
is empty whenever `end_date < start_date`; the result dictionary, keyed by
date in insertion (chronological) order, is embedded as an association list
from day number to that day's free list. -/
def get_free_times_for_date_range (start_date end_date : ℤ)
    (work_start_hour work_end_hour : ℤ) (events_on : ℤ → List (ℤ × ℤ))
    (delay_before delay_after : ℤ) : List (ℤ × List (ℤ × ℤ)) :=
  (List.range (end_date - start_date + 1).toNat).map fun x : ℕ =>
    (start_date + (x : ℤ),
      free_times_for_day (combine (start_date + (x : ℤ)) work_start_hour)
        (combine (start_date + (x : ℤ)) work_end_hour)
        (events_on (start_date + (x : ℤ))) delay_before delay_after)

/-- Embedding of the Python constructor `datetime.time(hour, 0)` used at
src/app.py lines 52-53: it raises `ValueError` unless `0 ≤ hour ≤ 23`, and
otherwise denotes `60 * hour` minutes past midnight. -/
def time (hour : ℤ) : Option ℤ :=
  if 0 ≤ hour ∧ hour ≤ 23 then some (60 * hour) else none

/-- The per-date computation with the working-window construction made
explicitly fallible, exactly as the source builds it: `datetime.time` may
raise, and `combine` then attaches the day.  Used to settle whether the
engine can fail internally on in-precondition inputs. -/
def free_times_for_day_checked (d work_start_hour work_end_hour : ℤ)
    (events : List (ℤ × ℤ)) (delay_before delay_after : ℤ) :
    Option (List (ℤ × ℤ)) :=
  (time work_start_hour).bind fun t₁ =>
    (time work_end_hour).map fun t₂ =>
      free_times_for_day (1440 * d + t₁) (1440 * d + t₂) events
        delay_before delay_after

/-- The date-range computation with the fallible working-window construction:
`none` models the `ValueError` escaping `get_free_times_for_date_range`. -/
def get_free_times_checked (start_date end_date : ℤ)
    (work_start_hour work_end_hour : ℤ) (events_on : ℤ → List (ℤ × ℤ))
    (delay_before delay_after : ℤ) : Option (List (ℤ × List (ℤ × ℤ))) :=
  (List.range (end_date - start_date + 1).toNat).mapM fun x : ℕ =>
    (free_times_for_day_checked (start_date + (x : ℤ)) work_start_hour
        work_end_hour (events_on (start_date + (x : ℤ)))
        delay_before delay_after).map fun fs => (start_date + (x : ℤ), fs)

/-- Well-formedness of a free list relative to a lower bound `lo` and the
window end `hi`: each slot (s, e) has `lo ≤ s < e ≤ hi` and successive slots
start no earlier than the previous one ends. -/
def SlotsFrom (lo hi : ℤ) : List (ℤ × ℤ) → Prop
  | [] => True
  | slot :: rest => lo ≤ slot.1 ∧ slot.1 < slot.2 ∧ slot.2 ≤ hi ∧
      SlotsFrom slot.2 hi rest

/-! ### Basic facts about the subtraction step -/

/-- A slot the buffered span does not overlap is kept whole. -/
theorem update_slot_keep {a b : ℤ} {p : ℤ × ℤ} (h : a ≥ p.2 ∨ b ≤ p.1) :
    update_slot a b p = [p] := by
  simp only [update_slot, if_pos h]

/-- A flatMap whose function keeps every element of the list whole is the
identity on that list. -/
theorem flatMap_self {α : Type} (f : α → List α) :
    ∀ l : List α, (∀ p ∈ l, f p = [p]) → l.flatMap f = l := by
  intro l
  induction l with
  | nil => intro _; rfl
  | cons p l ih =>
    intro h
    rw [List.flatMap_cons, h p (List.mem_cons_self p l),
      ih fun q hq => h q (List.mem_cons_of_mem p hq)]
    rfl

/-- Every piece produced by subtracting a span from one slot is itself
untouched by a second subtraction of the same span. -/
theorem update_slot_pieces_kept (a b : ℤ) (q : ℤ × ℤ) :
    ∀ p ∈ update_slot a b q, update_slot a b p = [p] := by
  intro p hp
  rw [update_slot] at hp
  split_ifs at hp with hkeep h1 h2 h3
  · rw [List.mem_singleton] at hp
    subst hp
    exact update_slot_keep hkeep
  · simp only [List.cons_append, List.nil_append, List.mem_cons,
      List.mem_singleton, List.not_mem_nil, or_false] at hp
    rcases hp with hp | hp <;> subst hp
    · exact update_slot_keep (Or.inl le_rfl)
    · exact update_slot_keep (Or.inr le_rfl)
  · simp only [List.append_nil, List.mem_singleton] at hp
    subst hp
    exact update_slot_keep (Or.inl le_rfl)
  · simp only [List.nil_append, List.mem_singleton] at hp
    subst hp
    exact update_slot_keep (Or.inr le_rfl)
  · simp at hp

set_option maxHeartbeats 1000000 in
/-- Single-slot commutativity: subtracting two well-formed spans from one
slot in either order yields the same list of pieces. -/
theorem update_slot_comm (a1 b1 a2 b2 : ℤ) (hw1 : a1 ≤ b1) (hw2 : a2 ≤ b2)
    (s e : ℤ) :
    updated_free_times a2 b2 (update_slot a1 b1 (s, e)) =
      updated_free_times a1 b1 (update_slot a2 b2 (s, e)) := by
  simp only [updated_free_times, update_slot, ge_iff_le, gt_iff_lt]
  split_ifs <;>
    simp only [List.flatMap_cons, List.flatMap_nil, List.flatMap_append,
      List.append_nil, List.nil_append, update_slot, ge_iff_le, gt_iff_lt] <;>
    split_ifs <;>
    simp_all only [List.append_nil, List.nil_append, List.append_assoc,
      List.cons_append, List.nil_append, List.cons.injEq, Prod.mk.injEq,
      and_true, true_and, List.flatMap_nil, List.flatMap_cons, not_or,
      not_le, not_lt] <;>
    try omega

/-- List-level commutativity of the subtraction of two well-formed spans. -/
theorem updated_free_times_comm (a1 b1 a2 b2 : ℤ) (hw1 : a1 ≤ b1)
    (hw2 : a2 ≤ b2) (l : List (ℤ × ℤ)) :
    updated_free_times a2 b2 (updated_free_times a1 b1 l) =
      updated_free_times a1 b1 (updated_free_times a2 b2 l) := by
  induction l with
  | nil => rfl
  | cons p l ih =>
    obtain ⟨s, e⟩ := p
    have hcons : ∀ c d : ℤ, updated_free_times c d ((s, e) :: l) =
        update_slot c d (s, e) ++ updated_free_times c d l := fun c d =>
      List.flatMap_cons ..
    have happ : ∀ c d : ℤ, ∀ l1 l2 : List (ℤ × ℤ),
        updated_free_times c d (l1 ++ l2) =
          updated_free_times c d l1 ++ updated_free_times c d l2 :=
      fun c d l1 l2 => List.flatMap_append ..
    rw [hcons, hcons, happ, happ, ih, update_slot_comm a1 b1 a2 b2 hw1 hw2]

/-! ### The well-formedness invariant of the free list -/

/-- The lower bound of `SlotsFrom` can be weakened. -/
theorem slotsFrom_mono {lo lo' hi : ℤ} (h : lo' ≤ lo) :
    ∀ {l : List (ℤ × ℤ)}, SlotsFrom lo hi l → SlotsFrom lo' hi l := by
  intro l hl
  cases l with
  | nil => trivial
  | cons p rest => exact ⟨le_trans h hl.1, hl.2⟩

/-- Every slot of a well-formed free list is a strictly positive interval
inside the window. -/
theorem slotsFrom_mem {hi : ℤ} :
    ∀ {l : List (ℤ × ℤ)} {lo : ℤ}, SlotsFrom lo hi l →
      ∀ p ∈ l, lo ≤ p.1 ∧ p.1 < p.2 ∧ p.2 ≤ hi := by
  intro l
  induction l with
  | nil => intro lo _ p hp; exact absurd hp (List.not_mem_nil p)
  | cons q rest ih =>
    intro lo hl p hp
    rcases List.mem_cons.mp hp with hp | hp
    · subst hp; exact ⟨hl.1, hl.2.1, hl.2.2.1⟩
    · have := ih hl.2.2.2 p hp
      exact ⟨le_trans hl.1 (le_trans hl.2.1.le this.1), this.2⟩

/-- In a well-formed free list, each slot ends no later than the next one
starts. -/
theorem slotsFrom_chain {hi : ℤ} :
    ∀ {l : List (ℤ × ℤ)} {lo : ℤ}, SlotsFrom lo hi l →
      List.Chain' (fun p q : ℤ × ℤ => p.2 ≤ q.1) l := by
  intro l
  induction l with
  | nil => intro lo _; exact List.chain'_nil
  | cons q rest ih =>
    intro lo hl
    cases rest with
    | nil => exact List.chain'_singleton q
    | cons r t => exact List.chain'_cons.mpr ⟨hl.2.2.2.1, ih hl.2.2.2⟩

/-- Subtracting a well-formed span preserves the free-list invariant. -/
theorem slotsFrom_updated {a b hi : ℤ} (hab : a ≤ b) :
    ∀ {l : List (ℤ × ℤ)} {lo : ℤ}, SlotsFrom lo hi l →
      SlotsFrom lo hi (updated_free_times a b l) := by
  intro l
  induction l with
  | nil => intro lo _; trivial
  | cons p rest ih =>
    intro lo hl
    obtain ⟨s, e⟩ := p
    obtain ⟨hlos, hse, hehi, hrest⟩ := hl
    have hcons : updated_free_times a b ((s, e) :: rest) =
        update_slot a b (s, e) ++ updated_free_times a b rest :=
      List.flatMap_cons ..
    rw [hcons, update_slot]
    split_ifs with hkeep h1 h2 h3
    · exact ⟨hlos, hse, hehi, ih hrest⟩
    · push_neg at hkeep
      exact ⟨hlos, h1, le_trans hkeep.1.le hehi,
        hab, h2, hehi, ih hrest⟩
    · push_neg at hkeep
      exact ⟨hlos, h1, le_trans hkeep.1.le hehi,
        slotsFrom_mono hkeep.1.le (ih hrest)⟩
    · push_neg at hkeep
      exact ⟨le_trans hlos (le_of_lt hkeep.2), h3, hehi, ih hrest⟩
    · exact slotsFrom_mono (le_trans hlos hse.le) (ih hrest)

/-- Folding well-formed buffered events over a well-formed free list keeps
the invariant. -/
theorem slotsFrom_foldl {db da hi : ℤ} (hdb : 0 ≤ db) (hda : 0 ≤ da) :
    ∀ (events : List (ℤ × ℤ)) {acc : List (ℤ × ℤ)} {lo : ℤ},
      (∀ ev ∈ events, ev.1 ≤ ev.2) → SlotsFrom lo hi acc →
      SlotsFrom lo hi (events.foldl (apply_event db da) acc) := by
  intro events
  induction events with
  | nil => intro acc lo _ hacc; exact hacc
  | cons ev evs ih =>
    intro acc lo hev hacc
    rw [List.foldl_cons]
    refine ih (fun x hx => hev x (List.mem_cons_of_mem ev hx)) ?_
    have hab : ev.1 - db ≤ ev.2 + da := by
      have := hev ev (List.mem_cons_self ev evs)
      omega
    exact slotsFrom_updated hab hacc

/-- The per-day free list is well formed whenever the window is nonempty,
the buffers are nonnegative and the events are well formed. -/
theorem slotsFrom_free_times_for_day {work_start work_end db da : ℤ}
    (hw : work_start < work_end) (hdb : 0 ≤ db) (hda : 0 ≤ da)
    {events : List (ℤ × ℤ)} (hev : ∀ ev ∈ events, ev.1 ≤ ev.2) :
    SlotsFrom work_start work_end
      (free_times_for_day work_start work_end events db da) :=
  slotsFrom_foldl hdb hda events hev ⟨le_rfl, hw, le_rfl, trivial⟩

/-! ### Facts about the date-range iteration -/

/-- Looking up a key in the association list built over a contiguous integer
range finds the corresponding value exactly when the key is in range. -/
theorem lookup_range_map {β : Type} (g : ℤ → β) :
    ∀ (n : ℕ) (s d : ℤ),
      (((List.range n).map fun x : ℕ => (s + (x : ℤ), g (s + (x : ℤ)))).lookup d) =
        if s ≤ d ∧ d < s + (n : ℤ) then some (g d) else none := by
  intro n
  induction n with
  | zero =>
    intro s d
    rw [if_neg]
    · rfl
    · push_cast
      omega
  | succ n ih =>
    intro s d
    rw [List.range_succ_eq_map, List.map_cons, List.map_map]
    have hfun : ((fun x : ℕ => (s + (x : ℤ), g (s + (x : ℤ)))) ∘ Nat.succ) =
        fun x : ℕ => ((s + 1) + (x : ℤ), g ((s + 1) + (x : ℤ))) := by
      funext x
      simp only [Function.comp_apply]
      congr 1 <;> push_cast <;> ring_nf
    rw [hfun, List.lookup_cons]
    split <;> rename_i hb
    · have hds : d = s + ((0 : ℕ) : ℤ) := beq_iff_eq.mp hb
      have hc : s ≤ d ∧ d < s + ((n + 1 : ℕ) : ℤ) := by omega
      rw [if_pos hc, ← hds]
    · have hds : ¬d = s + ((0 : ℕ) : ℤ) := by simpa using hb
      rw [ih (s + 1) d]
      split_ifs <;> first | rfl | omega

/-- A `mapM` over `Option` whose function always succeeds returns the plain
map of the underlying results. -/
theorem mapM_eq_some {α β : Type} (f : α → Option β) (g : α → β)
    (hfg : ∀ x, f x = some (g x)) :
    ∀ l : List α, l.mapM f = some (l.map g) := by
  intro l
  induction l with
  | nil => rfl
  | cons x xs ih =>
    rw [List.mapM_cons, hfg x, ih]
    rfl

/-! ### Claim theorems -/

/-- C4: for every free slot (s, e) and every event whose buffered span
satisfies adjusted_end = s or adjusted_start = e (touching a slot boundary
without crossing it), the subtraction step keeps (s, e) unchanged and
produces no split. -/
theorem C4_touching_no_split (adjusted_start adjusted_end : ℤ)
    (slot : ℤ × ℤ) (h : adjusted_end = slot.1 ∨ adjusted_start = slot.2) :
    update_slot adjusted_start adjusted_end slot = [slot] := by
  refine update_slot_keep ?_
  rcases h with h | h
  · exact Or.inr h.le
  · exact Or.inl h.ge

theorem C4_witness :
    ((3 : ℤ) = 3 ∨ (1 : ℤ) = 9) ∧
      update_slot 1 3 ((3 : ℤ), (9 : ℤ)) = [((3 : ℤ), (9 : ℤ))] :=
  ⟨Or.inl rfl, C4_touching_no_split 1 3 (3, 9) (Or.inl rfl)⟩

/-- C5: for working hours 9:00-17:00 on any date d, a single event spanning
8:00-18:00 on d yields the empty list as the day's free list, and that empty
list is the value the date-range computation returns for d. -/
theorem C5_full_day_event_empty (d : ℤ) :
    free_times_for_day (combine d 9) (combine d 17)
        [(combine d 8, combine d 18)] 0 0 = [] ∧
      get_free_times_for_date_range d d 9 17
        (fun x => [(combine x 8, combine x 18)]) 0 0 = [(d, [])] := by
  have hday : ∀ x : ℤ, free_times_for_day (combine x 9) (combine x 17)
      [(combine x 8, combine x 18)] 0 0 = [] := by
    intro x
    simp only [free_times_for_day, List.foldl_cons, List.foldl_nil,
      apply_event, updated_free_times, List.flatMap_cons, List.flatMap_nil,
      update_slot, combine, List.append_nil]
    split_ifs <;> first | rfl | (exfalso; omega)
  refine ⟨hday d, ?_⟩
  simp only [get_free_times_for_date_range]
  have h1 : (d - d + 1).toNat = 1 := by omega
  have hr1 : List.range 1 = [0] := rfl
  rw [h1, hr1, List.map_cons, List.map_nil]
  rw [hday]
  norm_num

/-- C6: the subtraction step is idempotent: applying the subtraction of one
event's buffered span twice in succession yields the same free list as
applying it once. -/
theorem C6_subtraction_idempotent (ev : ℤ × ℤ)
    (delay_before delay_after : ℤ) (free_times : List (ℤ × ℤ)) :
    apply_event delay_before delay_after
        (apply_event delay_before delay_after free_times ev) ev =
      apply_event delay_before delay_after free_times ev := by
  simp only [apply_event, updated_free_times]
  refine flatMap_self _ _ ?_
  intro p hp
  rw [List.mem_flatMap] at hp
  obtain ⟨q, _, hpq⟩ := hp
  exact update_slot_pieces_kept _ _ q p hpq

/-- C7 fails as stated: the event (1050, 1080) lies entirely outside the
working window (540, 1020) (it starts at or after the window's end), the
buffers (60, 0) are nonnegative, yet processing it changes the free list,
because the buffer pulls the adjusted span back inside the window. -/
theorem C7_counterexample :
    ((1020 : ℤ) ≤ 1050 ∧ (0 : ℤ) ≤ 60 ∧ (0 : ℤ) ≤ 0) ∧
      apply_event 60 0 [((540 : ℤ), (1020 : ℤ))] (1050, 1080) ≠
        [((540 : ℤ), (1020 : ℤ))] := by
  decide

/-- C7 amended: for every event whose BUFFERED span lies entirely outside
the working window, processing that event leaves any free list contained in
the window unchanged. -/
theorem C7_outside_buffered_no_effect (ev : ℤ × ℤ)
    (delay_before delay_after work_start work_end : ℤ)
    (free_times : List (ℤ × ℤ))
    (hl : ∀ p ∈ free_times, work_start ≤ p.1 ∧ p.2 ≤ work_end)
    (hout : ev.2 + delay_after ≤ work_start ∨ work_end ≤ ev.1 - delay_before) :
    apply_event delay_before delay_after free_times ev = free_times := by
  simp only [apply_event, updated_free_times]
  refine flatMap_self _ _ ?_
  intro p hp
  refine update_slot_keep ?_
  rcases hout with h | h
  · exact Or.inr (le_trans h (hl p hp).1)
  · exact Or.inl (le_trans (hl p hp).2 h)

theorem C7_amended_witness :
    (∀ p ∈ [((540 : ℤ), (1020 : ℤ))], (540 : ℤ) ≤ p.1 ∧ p.2 ≤ (1020 : ℤ)) ∧
      ((1140 : ℤ) + 0 ≤ 540 ∨ (1020 : ℤ) ≤ 1080 - 0) ∧
      apply_event 0 0 [((540 : ℤ), (1020 : ℤ))] (1080, 1140) =
        [((540 : ℤ), (1020 : ℤ))] :=
  ⟨by decide, Or.inr (by decide),
    C7_outside_buffered_no_effect (1080, 1140) 0 0 540 1020
      [((540 : ℤ), (1020 : ℤ))] (by decide) (Or.inr (by decide))⟩

/-- C10: if the start date is strictly after the end date, the engine raises
no range-validation error: the date loop body never runs and the returned
mapping is empty. -/
theorem C10_reversed_range_empty (start_date end_date : ℤ)
    (work_start_hour work_end_hour delay_before delay_after : ℤ)
    (events_on : ℤ → List (ℤ × ℤ)) (h : end_date < start_date) :
    get_free_times_for_date_range start_date end_date work_start_hour
      work_end_hour events_on delay_before delay_after = [] := by
  simp only [get_free_times_for_date_range]
  have h0 : (end_date - start_date + 1).toNat = 0 := by omega
  rw [h0]
  rfl

theorem C10_witness :
    (3 : ℤ) < 5 ∧
      get_free_times_for_date_range 5 3 9 17 (fun _ => []) 0 0 = [] :=
  ⟨by decide, C10_reversed_range_empty 5 3 9 17 0 0 (fun _ => []) (by decide)⟩

/-- C1: for every date in the queried range, with a nonempty working window,
nonnegative buffers and well-formed events, every interval of the returned
free list is strictly positive and contained in the day's working window,
and consecutive intervals do not overlap and appear in chronological
order. -/
theorem C1_returned_intervals_well_formed (start_date end_date : ℤ)
    (work_start_hour work_end_hour delay_before delay_after : ℤ)
    (events_on : ℤ → List (ℤ × ℤ))
    (hw : work_start_hour < work_end_hour)
    (hdb : 0 ≤ delay_before) (hda : 0 ≤ delay_after)
    (hev : ∀ d : ℤ, ∀ ev ∈ events_on d, ev.1 ≤ ev.2) :
    ∀ d fs, (d, fs) ∈ get_free_times_for_date_range start_date end_date
        work_start_hour work_end_hour events_on delay_before delay_after →
      (∀ p ∈ fs, combine d work_start_hour ≤ p.1 ∧ p.1 < p.2 ∧
        p.2 ≤ combine d work_end_hour) ∧
      List.Chain' (fun p q : ℤ × ℤ => p.2 ≤ q.1) fs := by
  intro d fs hmem
  simp only [get_free_times_for_date_range, List.mem_map,
    List.mem_range] at hmem
  obtain ⟨x, _, hx⟩ := hmem
  rw [Prod.ext_iff] at hx
  obtain ⟨hx1, hx2⟩ := hx
  subst hx1
  subst hx2
  have hwd : combine (start_date + (x : ℤ)) work_start_hour <
      combine (start_date + (x : ℤ)) work_end_hour := by
    simp only [combine]
    omega
  have hs := slotsFrom_free_times_for_day hwd hdb hda
    (hev (start_date + (x : ℤ)))
  exact ⟨slotsFrom_mem hs, slotsFrom_chain hs⟩

theorem C1_witness :
    (9 : ℤ) < 17 ∧ (0 : ℤ) ≤ 0 ∧
      (∀ d : ℤ, ∀ ev ∈ [((600 : ℤ), (660 : ℤ))], ev.1 ≤ ev.2) ∧
      (∀ d fs, (d, fs) ∈ get_free_times_for_date_range 0 1 9 17
          (fun _ => [((600 : ℤ), (660 : ℤ))]) 0 0 →
        (∀ p ∈ fs, combine d 9 ≤ p.1 ∧ p.1 < p.2 ∧ p.2 ≤ combine d 17) ∧
        List.Chain' (fun p q : ℤ × ℤ => p.2 ≤ q.1) fs) :=
  ⟨by decide, by decide, fun _ => by decide,
    C1_returned_intervals_well_formed 0 1 9 17 0 0
      (fun _ => [((600 : ℤ), (660 : ℤ))]) (by decide) (by decide)
      (by decide) (fun _ => by norm_num)⟩

/-- C2: with both buffers zero, folding the subtraction step over the events
of a day in any permutation of their order yields the same final set of free
intervals. -/
theorem C2_order_independence (work_start work_end : ℤ)
    (events events2 : List (ℤ × ℤ)) (hperm : events.Perm events2)
    (hev : ∀ ev ∈ events, ev.1 ≤ ev.2) :
    ∀ p : ℤ × ℤ, p ∈ free_times_for_day work_start work_end events 0 0 ↔
      p ∈ free_times_for_day work_start work_end events2 0 0 := by
  have hcomm : ∀ x ∈ events, ∀ y ∈ events, ∀ z : List (ℤ × ℤ),
      apply_event 0 0 (apply_event 0 0 z x) y =
        apply_event 0 0 (apply_event 0 0 z y) x := by
    intro x hx y hy z
    simp only [apply_event]
    have h1 : x.1 - 0 ≤ x.2 + 0 := by have := hev x hx; omega
    have h2 : y.1 - 0 ≤ y.2 + 0 := by have := hev y hy; omega
    exact updated_free_times_comm _ _ _ _ h1 h2 z
  have hfold := hperm.foldl_eq' hcomm [(work_start, work_end)]
  intro p
  rw [free_times_for_day, free_times_for_day, hfold]

theorem C2_witness :
    [((600 : ℤ), (660 : ℤ)), ((700 : ℤ), (760 : ℤ))].Perm
        [((700 : ℤ), (760 : ℤ)), ((600 : ℤ), (660 : ℤ))] ∧
      (∀ ev ∈ [((600 : ℤ), (660 : ℤ)), ((700 : ℤ), (760 : ℤ))],
        ev.1 ≤ ev.2) ∧
      (∀ p : ℤ × ℤ,
        p ∈ free_times_for_day 540 1020
            [((600 : ℤ), (660 : ℤ)), ((700 : ℤ), (760 : ℤ))] 0 0 ↔
          p ∈ free_times_for_day 540 1020
            [((700 : ℤ), (760 : ℤ)), ((600 : ℤ), (660 : ℤ))] 0 0) :=
  ⟨List.Perm.swap _ _ _, by decide,
    C2_order_independence 540 1020 _ _ (List.Perm.swap _ _ _) (by decide)⟩

/-- C3: for every date of the queried range on which the loader yields no
event instances, the returned free list for that date is exactly the single
working-window interval. -/
theorem C3_no_events_full_window (start_date end_date : ℤ)
    (work_start_hour work_end_hour delay_before delay_after : ℤ)
    (events_on : ℤ → List (ℤ × ℤ)) (d : ℤ)
    (hd : start_date ≤ d ∧ d ≤ end_date) (hev : events_on d = []) :
    (get_free_times_for_date_range start_date end_date work_start_hour
        work_end_hour events_on delay_before delay_after).lookup d =
      some [(combine d work_start_hour, combine d work_end_hour)] := by
  simp only [get_free_times_for_date_range]
  have h := lookup_range_map
    (fun y : ℤ => free_times_for_day (combine y work_start_hour)
      (combine y work_end_hour) (events_on y) delay_before delay_after)
    (end_date - start_date + 1).toNat start_date d
  simp only at h
  rw [h, if_pos (by omega)]
  rw [hev]
  rfl

theorem C3_witness :
    ((0 : ℤ) ≤ 0 ∧ (0 : ℤ) ≤ 2) ∧ ([] : List (ℤ × ℤ)) = [] ∧
      (get_free_times_for_date_range 0 2 9 17
          (fun _ => ([] : List (ℤ × ℤ))) 0 0).lookup 0 =
        some [(combine 0 9, combine 0 17)] :=
  ⟨by decide, rfl,
    C3_no_events_full_window 0 2 9 17 0 0 (fun _ => []) 0 (by decide) rfl⟩

/-- C8: for start_date ≤ end_date the returned mapping has exactly one entry
for each calendar date of the inclusive range, its keys are strictly
increasing (insertion order is chronological), and its length is the number
of dates in the range. -/
theorem C8_one_entry_per_date (start_date end_date : ℤ)
    (work_start_hour work_end_hour delay_before delay_after : ℤ)
    (events_on : ℤ → List (ℤ × ℤ)) (hse : start_date ≤ end_date) :
    (∀ d : ℤ, (∃ fs, (d, fs) ∈ get_free_times_for_date_range start_date
        end_date work_start_hour work_end_hour events_on delay_before
        delay_after) ↔ start_date ≤ d ∧ d ≤ end_date) ∧
      List.Chain' (fun a b : ℤ => a < b)
        ((get_free_times_for_date_range start_date end_date work_start_hour
          work_end_hour events_on delay_before delay_after).map Prod.fst) ∧
      (get_free_times_for_date_range start_date end_date work_start_hour
        work_end_hour events_on delay_before delay_after).length =
        (end_date - start_date + 1).toNat := by
  refine ⟨?_, ?_, ?_⟩
  · intro d
    constructor
    · rintro ⟨fs, hfs⟩
      simp only [get_free_times_for_date_range, List.mem_map,
        List.mem_range] at hfs
      obtain ⟨x, hx, hpair⟩ := hfs
      have h1 := congrArg Prod.fst hpair
      simp only at h1
      omega
    · rintro ⟨h1, h2⟩
      refine ⟨free_times_for_day (combine d work_start_hour)
        (combine d work_end_hour) (events_on d) delay_before delay_after, ?_⟩
      simp only [get_free_times_for_date_range, List.mem_map, List.mem_range]
      refine ⟨(d - start_date).toNat, by omega, ?_⟩
      have hx : start_date + (((d - start_date).toNat : ℕ) : ℤ) = d := by
        omega
      rw [hx]
  · simp only [get_free_times_for_date_range, List.map_map]
    have hp : List.Pairwise
        (fun a b : ℕ => start_date + (a : ℤ) < start_date + (b : ℤ))
        (List.range (end_date - start_date + 1).toNat) :=
      (List.pairwise_lt_range _).imp (by intro a b hab; omega)
    have hc := hp.chain'
    rw [List.chain'_map]
    exact hc
  · simp only [get_free_times_for_date_range, List.length_map,
      List.length_range]

theorem C8_witness :
    (0 : ℤ) ≤ 2 ∧
      ((∀ d : ℤ, (∃ fs, (d, fs) ∈ get_free_times_for_date_range 0 2 9 17
          (fun _ => ([] : List (ℤ × ℤ))) 0 0) ↔ 0 ≤ d ∧ d ≤ 2) ∧
        List.Chain' (fun a b : ℤ => a < b)
          ((get_free_times_for_date_range 0 2 9 17
            (fun _ => ([] : List (ℤ × ℤ))) 0 0).map Prod.fst) ∧
        (get_free_times_for_date_range 0 2 9 17
          (fun _ => ([] : List (ℤ × ℤ))) 0 0).length =
          ((2 : ℤ) - 0 + 1).toNat) :=
  ⟨by decide, C8_one_entry_per_date 0 2 9 17 0 0 (fun _ => []) (by decide)⟩

/-- C9 fails as stated: the spec's precondition admits work_end_hour = 24,
but the source builds the window with datetime.time(work_end_hour, 0), which
rejects hour 24, so the engine fails internally on an input satisfying the
stated preconditions (start 0 ≤ end 0, 0 ≤ 9 < 24 ≤ 24, buffers 0). -/
theorem C9_counterexample :
    ((0 : ℤ) ≤ 0 ∧ (0 : ℤ) ≤ 9 ∧ (9 : ℤ) < 24 ∧ (24 : ℤ) ≤ 24 ∧
        (0 : ℤ) ≤ 0) ∧
      time 24 = none ∧
      get_free_times_checked 0 0 9 24 (fun _ => []) 0 0 = none := by
  decide

/-- C9 amended: for hour bounds up to and including 23 (not 24: the
datetime.time constructor rejects hour 24), the working-window construction
succeeds on every date and the engine completes without internal failure,
returning the unchecked computation's result. -/
theorem C9_in_range_hours_no_failure (start_date end_date : ℤ)
    (work_start_hour work_end_hour delay_before delay_after : ℤ)
    (events_on : ℤ → List (ℤ × ℤ))
    (h : 0 ≤ work_start_hour ∧ work_start_hour < work_end_hour ∧
      work_end_hour ≤ 23) :
    get_free_times_checked start_date end_date work_start_hour work_end_hour
        events_on delay_before delay_after =
      some (get_free_times_for_date_range start_date end_date
        work_start_hour work_end_hour events_on delay_before delay_after) := by
  simp only [get_free_times_checked, get_free_times_for_date_range]
  refine mapM_eq_some _ _ ?_ _
  intro x
  have hc1 : 0 ≤ work_start_hour ∧ work_start_hour ≤ 23 := by omega
  have hc2 : 0 ≤ work_end_hour ∧ work_end_hour ≤ 23 := by omega
  simp only [free_times_for_day_checked, time, if_pos hc1, if_pos hc2]
  rfl

theorem C9_witness :
    ((0 : ℤ) ≤ 9 ∧ (9 : ℤ) < 17 ∧ (17 : ℤ) ≤ 23) ∧
      get_free_times_checked 0 1 9 17 (fun _ => ([] : List (ℤ × ℤ))) 0 0 =
        some (get_free_times_for_date_range 0 1 9 17
          (fun _ => ([] : List (ℤ × ℤ))) 0 0) :=
  ⟨by decide,
    C9_in_range_hours_no_failure 0 1 9 17 0 0 (fun _ => []) (by decide)⟩

end ScheduleSlotter
